/-
Verification of the rPPG signal-processing core
(src/ml_models/signal_processing_wasm/src/signal_processing.cpp)
against its natural-language specification.

Shallow embedding conventions:
* C `float` buffers are embedded as functions `ℕ → α` over a
  `LinearOrderedField α` (exact arithmetic); claims about real-valued
  results are stated over `ℝ`, executable witnesses instantiate `α := ℚ`.
* Possibly-null pointers are embedded as `Option (ℕ → α)`; `none` is the
  null pointer.
* A C `int` length is embedded as `ℤ` (so `length <= 0` is faithful).
* In-place writes to an output buffer are embedded by returning the updated
  buffer function; indices the C code never writes keep their old value.
* The C constant `PI = 3.14159265359f` is kept as the exact rational literal
  in the filter coefficients (where only the symbolic identity of the
  constant matters).  In the FFT twiddle factors the exact-arithmetic
  idealization of the spec is used: the float constant stands for `Real.pi`,
  since the spec and the claims state the FFT property "in exact complex
  arithmetic" with twiddles `exp (-2*pi*I*k/N)`.
-/
import Mathlib

set_option maxHeartbeats 1000000

noncomputable section

namespace SignalProcessing

/-- The program constant `PI = 3.14159265359f`, read exactly as a rational. -/
def PI : ℚ := 3.14159265359

/-- High-pass stage of `bandpass_filter`:
`temp[0] = input[0]; temp[i] = alpha_high * (temp[i-1] + input[i] - input[i-1])`. -/
def hpStage {α : Type} [LinearOrderedField α] (alpha_high : α) (input : ℕ → α) : ℕ → α
  | 0 => input 0
  | i + 1 => alpha_high * (hpStage alpha_high input i + input (i + 1) - input i)

/-- Low-pass stage of `bandpass_filter`:
`output[0] = temp[0]; output[i] = output[i-1] + alpha_low * (temp[i] - output[i-1])`. -/
def lpStage {α : Type} [LinearOrderedField α] (alpha_low : α) (t : ℕ → α) : ℕ → α
  | 0 => t 0
  | i + 1 => lpStage alpha_low t i + alpha_low * (t (i + 1) - lpStage alpha_low t i)

/-- Embedding of `bandpass_filter` from signal_processing.cpp (lines 70-104).
Null-pointer / length / normalized-band validation exactly as in the code;
on failure the output buffer is returned unchanged, on success the indices
`0 ≤ i < length` hold the two-stage IIR cascade and the rest of the output
buffer is unchanged. -/
def bandpass_filter {α : Type} [LinearOrderedField α]
    (input output : Option (ℕ → α)) (length : ℤ)
    (sample_rate low_cutoff high_cutoff : α) : Bool × Option (ℕ → α) :=
  match input, output with
  | some inp, some out =>
    if length ≤ 0 then (false, some out)
    else
      let nyquist := sample_rate / 2
      let low_norm := low_cutoff / nyquist
      let high_norm := high_cutoff / nyquist
      if low_norm ≤ 0 ∨ 1 ≤ high_norm ∨ high_norm ≤ low_norm then (false, some out)
      else
        let rc_low := 1 / (2 * (PI : α) * low_cutoff)
        let rc_high := 1 / (2 * (PI : α) * high_cutoff)
        let dt := 1 / sample_rate
        let alpha_low := dt / (rc_low + dt)
        let alpha_high := rc_high / (rc_high + dt)
        (true, some fun i =>
          if (i : ℤ) < length then lpStage alpha_low (hpStage alpha_high inp) i else out i)
  | _, _ => (false, output)

/-- The low-pass coefficient of the claim: `alpha_low = dt / (rc_low + dt)`
with `rc_low = 1 / (2*PI*low_cutoff)` and `dt = 1 / sample_rate`. -/
def alphaLow {α : Type} [LinearOrderedField α] (sample_rate low_cutoff : α) : α :=
  (1 / sample_rate) / (1 / (2 * (PI : α) * low_cutoff) + 1 / sample_rate)

/-- The high-pass coefficient of the claim: `alpha_high = rc_high / (rc_high + dt)`
with `rc_high = 1 / (2*PI*high_cutoff)`. -/
def alphaHigh {α : Type} [LinearOrderedField α] (sample_rate high_cutoff : α) : α :=
  (1 / (2 * (PI : α) * high_cutoff)) /
    (1 / (2 * (PI : α) * high_cutoff) + 1 / sample_rate)

/-- Mean used by `detrend_signal` (sum of the first `n` samples over `n`). -/
def detrendMean {α : Type} [LinearOrderedField α] (n : ℕ) (x : ℕ → α) : α :=
  (∑ i in Finset.range n, x i) / n

/-- The signal after DC removal: `signal[i] -= mean`. -/
def demean {α : Type} [LinearOrderedField α] (n : ℕ) (x : ℕ → α) : ℕ → α :=
  fun i => x i - detrendMean n x

/-- `sum_x` from `detrend_signal`: sum of the indices `0, …, n-1`. -/
def sumX {α : Type} [LinearOrderedField α] (n : ℕ) : α :=
  ∑ i in Finset.range n, (i : α)

/-- `sum_x2` from `detrend_signal`: sum of `i * i`. -/
def sumX2 {α : Type} [LinearOrderedField α] (n : ℕ) : α :=
  ∑ i in Finset.range n, (i : α) * i

/-- `sum_y` from `detrend_signal` for a buffer `y`. -/
def sumYOf {α : Type} [LinearOrderedField α] (n : ℕ) (y : ℕ → α) : α :=
  ∑ i in Finset.range n, y i

/-- `sum_xy` from `detrend_signal` for a buffer `y`. -/
def sumXYOf {α : Type} [LinearOrderedField α] (n : ℕ) (y : ℕ → α) : α :=
  ∑ i in Finset.range n, (i : α) * y i

/-- Least-squares slope `(length*sum_xy - sum_x*sum_y) / (length*sum_x2 - sum_x*sum_x)`. -/
def regSlope {α : Type} [LinearOrderedField α] (n : ℕ) (y : ℕ → α) : α :=
  ((n : α) * sumXYOf n y - sumX n * sumYOf n y) /
    ((n : α) * sumX2 n - sumX n * sumX n)

/-- Least-squares intercept `(sum_y - slope*sum_x) / length`. -/
def regIntercept {α : Type} [LinearOrderedField α] (n : ℕ) (y : ℕ → α) : α :=
  (sumYOf n y - regSlope n y * sumX n) / n

/-- Embedding of `detrend_signal` (lines 38-65): remove the mean, then
subtract the fitted line `slope*i + intercept` computed on the demeaned
signal. -/
def detrend_signal {α : Type} [LinearOrderedField α] (n : ℕ) (x : ℕ → α) : ℕ → α :=
  fun i =>
    demean n x i -
      (regSlope n (demean n x) * i + regIntercept n (demean n x))

/-- Max over the first `n` samples of a buffer (`*std::max_element(output, output+length)`,
meaningful for `n ≥ 1`). -/
def bufMax {α : Type} [LinearOrderedField α] (n : ℕ) (x : ℕ → α) : α :=
  ((List.range n).map x).foldl max (x 0)

/-- Min over the first `n` samples of a buffer. -/
def bufMin {α : Type} [LinearOrderedField α] (n : ℕ) (x : ℕ → α) : α :=
  ((List.range n).map x).foldl min (x 0)

/-- Step 3 of `process_rppg_signals`: min-max normalization of the first `n`
samples when `range > 0`, identity otherwise. -/
def normalizeStep {α : Type} [LinearOrderedField α] (n : ℕ) (g : ℕ → α) : ℕ → α :=
  let max_val := bufMax n g
  let min_val := bufMin n g
  let range := max_val - min_val
  if 0 < range then (fun i => if i < n then (g i - min_val) / range else g i) else g

/-- Step 0 of `process_rppg_signals`: the output buffer after
`output[i] = input[i]` for `i < n` (above `n` the old output values remain). -/
def procCopied {α : Type} [LinearOrderedField α] (n : ℕ) (inp out : ℕ → α) : ℕ → α :=
  fun i => if i < n then inp i else out i

/-- Step 1 of `process_rppg_signals`: the output buffer after the in-place
`detrend_signal(output, length)`. -/
def procDet {α : Type} [LinearOrderedField α] (n : ℕ) (inp out : ℕ → α) : ℕ → α :=
  fun i => if i < n then detrend_signal n (procCopied n inp out) i
           else procCopied n inp out i

/-- Embedding of `process_rppg_signals` (lines 195-226): copy input to output,
detrend in place, band-pass filter a copy through [0.8, 3.0] Hz back into the
output, then min-max normalize.  The `(true, none)` branch of the filter
result is unreachable for `some`/`some` arguments and is mapped to failure. -/
def process_rppg_signals {α : Type} [LinearOrderedField α]
    (input output : Option (ℕ → α)) (length : ℤ) (sample_rate : α) :
    Bool × Option (ℕ → α) :=
  match input, output with
  | some inp, some out =>
    if length ≤ 0 then (false, some out)
    else
      match bandpass_filter (some (procDet length.toNat inp out))
          (some (procDet length.toNat inp out)) length sample_rate 0.8 3.0 with
      | (false, o) => (false, o)
      | (true, none) => (false, none)
      | (true, some filtered) => (true, some (normalizeStep length.toNat filtered))
  | _, _ => (false, output)

/-- Claim-side composition for C3: detrend the input, then the [0.8, 3.0] Hz
two-stage cascade. -/
def procFiltered {α : Type} [LinearOrderedField α] (n : ℕ) (sr : α) (f : ℕ → α) :
    ℕ → α :=
  lpStage (alphaLow sr 0.8) (hpStage (alphaHigh sr 3.0) (detrend_signal n f))

/-- Truncation toward zero, the semantics of C's `static_cast<int>` on a
non-NaN value. -/
def itrunc {α : Type} [LinearOrderedField α] [FloorRing α] (x : α) : ℤ :=
  if 0 ≤ x then ⌊x⌋ else -⌊-x⌋

/-- `freq_resolution = sample_rate / fft_size` with `fft_size = psd.size() * 2`. -/
def freqResOf {α : Type} [LinearOrderedField α] (psd : List α) (sample_rate : α) : α :=
  sample_rate / ((psd.length : α) * 2)

/-- `min_bin = std::max(1, (int)(min_freq / freq_resolution))`. -/
def minBinOf {α : Type} [LinearOrderedField α] [FloorRing α]
    (psd : List α) (sample_rate min_freq : α) : ℤ :=
  max 1 (itrunc (min_freq / freqResOf psd sample_rate))

/-- `max_bin = std::min((int)psd.size() - 1, (int)(max_freq / freq_resolution))`. -/
def maxBinOf {α : Type} [LinearOrderedField α] [FloorRing α]
    (psd : List α) (sample_rate max_freq : α) : ℤ :=
  min ((psd.length : ℤ) - 1) (itrunc (max_freq / freqResOf psd sample_rate))

/-- One iteration of the peak-search loop: strict `>` update of the running
maximum, so ties keep the earlier bin. -/
def peakStep {α : Type} [LinearOrderedField α] (psd : List α) (acc : ℤ × α) (i : ℤ) :
    ℤ × α :=
  if acc.2 < psd.getD i.toNat 0 then (i, psd.getD i.toNat 0) else acc

/-- The bins visited by the loop `for (i = min_bin + 1; i <= max_bin; i++)`. -/
def scanList (min_bin max_bin : ℤ) : List ℤ :=
  (List.range (max_bin - min_bin).toNat).map fun j : ℕ => min_bin + 1 + (j : ℤ)

/-- The peak search of `find_peak_frequency`: start at
`(min_bin, psd[min_bin])` and scan `min_bin+1 … max_bin`. -/
def peakScan {α : Type} [LinearOrderedField α] (psd : List α) (min_bin max_bin : ℤ) :
    ℤ × α :=
  (scanList min_bin max_bin).foldl (peakStep psd) (min_bin, psd.getD min_bin.toNat 0)

/-- The set of bin indices read by `find_peak_frequency`: the unconditional
`psd[min_bin]` access plus the loop accesses `psd[i]`,
`min_bin + 1 <= i <= max_bin`. -/
def peakAccessedBins (min_bin max_bin : ℤ) : Finset ℤ :=
  insert min_bin (Finset.Icc (min_bin + 1) max_bin)

/-- Embedding of `find_peak_frequency` (lines 169-190): returns
`peak_bin * freq_resolution`. -/
def find_peak_frequency {α : Type} [LinearOrderedField α] [FloorRing α]
    (psd : List α) (sample_rate min_freq max_freq : α) : α :=
  ((peakScan psd (minBinOf psd sample_rate min_freq)
      (maxBinOf psd sample_rate max_freq)).1 : ℤ) * freqResOf psd sample_rate

/-- The even-indexed subsequence built by the divide step of `fft`. -/
def evens : List ℂ → List ℂ
  | [] => []
  | [a] => [a]
  | a :: _ :: rest => a :: evens rest

/-- The odd-indexed subsequence built by the divide step of `fft`. -/
def odds : List ℂ → List ℂ
  | [] => []
  | [_] => []
  | _ :: b :: rest => b :: odds rest

/-- The twiddle factor `std::polar(1.0f, -2 * PI * k / N) = exp(-2*pi*I*k/N)`
(exact-arithmetic reading of the float constant `PI`). -/
def twiddle (N k : ℕ) : ℂ :=
  Complex.exp (-(2 * (Real.pi : ℂ) * Complex.I) * k / N)

/-- Length of the even-indexed subsequence (stated as a `def` because the
well-founded recursion of `fft` below depends on it). -/
def evensLengthEq : ∀ l : List ℂ, (evens l).length = (l.length + 1) / 2
  | [] => rfl
  | [_] => by simp [evens]
  | _ :: _ :: rest => by
    simp only [evens, List.length_cons, evensLengthEq rest]
    omega

/-- Length of the odd-indexed subsequence. -/
def oddsLengthEq : ∀ l : List ℂ, (odds l).length = l.length / 2
  | [] => rfl
  | [_] => by simp [odds]
  | _ :: _ :: rest => by
    simp only [odds, List.length_cons, oddsLengthEq rest]
    omega

/-- Embedding of the recursive Cooley-Tukey `fft` (lines 109-130).  The write
pattern `data[k] = even[k] + t; data[k + N/2] = even[k] - t` for `k < N/2` is
rendered as a map over all `N` positions; positions not written by the loop
(possible only when `N` is odd) keep the original value. -/
def fft (data : List ℂ) : List ℂ :=
  if _h : data.length ≤ 1 then data
  else
    let N := data.length
    let e := fft (evens data)
    let o := fft (odds data)
    (List.range N).map fun j =>
      if j < N / 2 then e.getD j 0 + twiddle N j * o.getD j 0
      else if j - N / 2 < N / 2 then
        e.getD (j - N / 2) 0 - twiddle N (j - N / 2) * o.getD (j - N / 2) 0
      else data.getD j 0
termination_by data.length
decreasing_by
  · rw [evensLengthEq]; omega
  · rw [oddsLengthEq]; omega

/-- Reference discrete Fourier transform, written as in the claim:
`X[k] = ∑ n, x[n] * exp(-2*pi*I*n*k/N)`.  This is the spec-side comparator
for the refinement claim about `fft`. -/
def dft (x : List ℂ) : List ℂ :=
  (List.range x.length).map fun k : ℕ =>
    ∑ n in Finset.range x.length,
      x.getD n 0 *
        Complex.exp (-(2 * (Real.pi : ℂ) * Complex.I) * n * (k : ℂ) / x.length)

/-- The primitive `N`-th root `exp(-2*pi*I/N)` used to restate the twiddle
factors as powers when proving `fft` against the reference DFT. -/
def rootW (N : ℕ) : ℂ :=
  Complex.exp (-(2 * (Real.pi : ℂ) * Complex.I) / N)

/-- The padding loop of `calculate_psd`:
`int fft_size = 1; while (fft_size < length) fft_size <<= 1;`.
The conjunct `0 < fs` is the loop invariant (the initial value is 1),
included so the loop is well founded. -/
def nextPow2Loop (length : ℕ) (fs : ℕ) : ℕ :=
  if h : 0 < fs ∧ fs < length then nextPow2Loop length (2 * fs) else fs
termination_by length - fs
decreasing_by omega

/-- The padded FFT size of `calculate_psd`: the loop started at 1. -/
def nextPow2 (length : ℕ) : ℕ := nextPow2Loop length 1

/-- The Hann window `0.5 * (1 - cos(2*PI*i / (length - 1)))` (exact-arithmetic
reading: `PI` stands for `Real.pi`). -/
def hannWindow (length : ℕ) (i : ℕ) : ℝ :=
  0.5 * (1 - Real.cos (2 * Real.pi * i / (length - 1 : ℕ)))

/-- The complex FFT input buffer before windowing: the signal in the first
`length` slots (zero imaginary part), zeros in the padded tail. -/
def psdInit (signal : ℕ → ℝ) (length fft_size : ℕ) : List ℂ :=
  (List.range fft_size).map fun i => if i < length then ((signal i : ℝ) : ℂ) else 0

/-- The windowing loop of `calculate_psd`: the Hann window is multiplied only
into the first `length` entries. -/
def applyHann (length : ℕ) (data : List ℂ) : List ℂ :=
  (List.range data.length).map fun i =>
    if i < length then data.getD i 0 * ((hannWindow length i : ℝ) : ℂ) else data.getD i 0

/-- Embedding of `calculate_psd` (lines 135-164): zero-pad to the next power
of two, window, FFT, and return the first `fft_size / 2` squared magnitudes
(`std::norm`). -/
def calculate_psd (signal : ℕ → ℝ) (length : ℕ) : List ℝ :=
  let fft_size := nextPow2 length
  let fft_data := applyHann length (psdInit signal length fft_size)
  let out := fft fft_data
  (List.range (fft_size / 2)).map fun i => Complex.normSq (out.getD i 0)

/-- Embedding of `calculate_heart_rate_fft` (lines 231-246): null/length
guard, BPM→Hz conversion, PSD of the raw signal (no pre-filtering), peak
search, Hz→BPM. -/
def calculate_heart_rate_fft (signals : Option (ℕ → ℝ)) (length : ℤ)
    (sample_rate min_bpm max_bpm : ℝ) : ℝ :=
  match signals with
  | none => 0
  | some s =>
    if length ≤ 0 then 0
    else
      find_peak_frequency (calculate_psd s length.toNat) sample_rate
        (min_bpm / 60) (max_bpm / 60) * 60

/-- Embedding of `calculate_respiration_rate` (lines 251-272): null/length
guard, band-pass through [0.1, 0.7] Hz into a zero-initialized buffer, PSD of
the filtered signal, peak search, Hz→BrPM.  The filter cannot return
`(true, none)` on a `some` input; that branch is mapped to the sentinel. -/
def calculate_respiration_rate (signals : Option (ℕ → ℝ)) (length : ℤ)
    (sample_rate min_brpm max_brpm : ℝ) : ℝ :=
  match signals with
  | none => 0
  | some s =>
    if length ≤ 0 then 0
    else
      match bandpass_filter (some s) (some fun _ => 0) length sample_rate 0.1 0.7 with
      | (false, _) => 0
      | (true, none) => 0
      | (true, some filtered) =>
        find_peak_frequency (calculate_psd filtered length.toNat) sample_rate
          (min_brpm / 60) (max_brpm / 60) * 60

/-- On a validated call, `bandpass_filter` succeeds and its output is the
IIR cascade below `length` and the untouched output buffer above it. -/
theorem bandpass_eq_of_valid {α : Type} [LinearOrderedField α]
    (inp out : ℕ → α) (len : ℤ) (sr lo hi : α)
    (hlen : 0 < len) (h1 : 0 < lo / (sr / 2)) (h2 : hi / (sr / 2) < 1)
    (h3 : lo / (sr / 2) < hi / (sr / 2)) :
    bandpass_filter (some inp) (some out) len sr lo hi =
      (true, some fun i : ℕ => if (i : ℤ) < len then
          lpStage (alphaLow sr lo) (hpStage (alphaHigh sr hi) inp) i
        else out i) := by
  simp only [bandpass_filter, alphaLow, alphaHigh]
  rw [if_neg (by omega), if_neg (by push_neg; exact ⟨h1, h2, h3⟩)]

/-- C1: on a call with non-null input and output, positive length, and a band
passing validation, `bandpass_filter` returns success and the output below
`length` is exactly the two-stage cascade: the high-pass recurrence
`temp[0] = input[0]`, `temp[i] = alpha_high*(temp[i-1] + input[i] - input[i-1])`
followed by the low-pass recurrence `output[0] = temp[0]`,
`output[i] = output[i-1] + alpha_low*(temp[i] - output[i-1])`, with
`alpha_high = rc_high/(rc_high+dt)`, `rc_high = 1/(2*PI*high_cutoff)`,
`alpha_low = dt/(rc_low+dt)`, `rc_low = 1/(2*PI*low_cutoff)`, `dt = 1/sample_rate`
(the buffer model keeps input and output the same length by construction). -/
theorem C1_bandpass_cascade {α : Type} [LinearOrderedField α]
    (inp out : ℕ → α) (len : ℤ) (sr lo hi : α)
    (hlen : 0 < len) (h1 : 0 < lo / (sr / 2)) (h2 : hi / (sr / 2) < 1)
    (h3 : lo / (sr / 2) < hi / (sr / 2)) :
    (bandpass_filter (some inp) (some out) len sr lo hi).1 = true ∧
    ∃ g, (bandpass_filter (some inp) (some out) len sr lo hi).2 = some g ∧
      (∀ i : ℕ, (i : ℤ) < len →
        g i = lpStage (alphaLow sr lo) (hpStage (alphaHigh sr hi) inp) i) ∧
      hpStage (alphaHigh sr hi) inp 0 = inp 0 ∧
      (∀ i : ℕ, hpStage (alphaHigh sr hi) inp (i + 1) =
        alphaHigh sr hi * (hpStage (alphaHigh sr hi) inp i + inp (i + 1) - inp i)) ∧
      lpStage (alphaLow sr lo) (hpStage (alphaHigh sr hi) inp) 0 =
        hpStage (alphaHigh sr hi) inp 0 ∧
      (∀ i : ℕ, lpStage (alphaLow sr lo) (hpStage (alphaHigh sr hi) inp) (i + 1) =
        lpStage (alphaLow sr lo) (hpStage (alphaHigh sr hi) inp) i +
          alphaLow sr lo * (hpStage (alphaHigh sr hi) inp (i + 1) -
            lpStage (alphaLow sr lo) (hpStage (alphaHigh sr hi) inp) i)) := by
  rw [bandpass_eq_of_valid inp out len sr lo hi hlen h1 h2 h3]
  exact ⟨rfl, _, rfl, fun i hilt => by simp [hilt], rfl, fun i => rfl, rfl, fun i => rfl⟩

/-- Witness for C1: a concrete validated call over `ℚ`. -/
theorem C1_bandpass_cascade_witness :
    (0 : ℤ) < 3 ∧ 0 < (0.8 : ℚ) / (30 / 2) ∧ (3 : ℚ) / (30 / 2) < 1 ∧
      (0.8 : ℚ) / (30 / 2) < (3 : ℚ) / (30 / 2) ∧
      (bandpass_filter (some fun _ => (1 : ℚ)) (some fun _ => 0) 3 30 0.8 3).1 = true :=
  ⟨by decide, by norm_num, by norm_num, by norm_num,
    (C1_bandpass_cascade (fun _ => (1 : ℚ)) (fun _ => 0) 3 30 0.8 3 (by decide)
      (by norm_num) (by norm_num) (by norm_num)).1⟩

/-- Failure characterization of `bandpass_filter` (shared helper). -/
theorem bandpass_failure_char {α : Type} [LinearOrderedField α]
    (input output : Option (ℕ → α)) (len : ℤ) (sr lo hi : α) :
    ((bandpass_filter input output len sr lo hi).1 = false ↔
      input = none ∨ output = none ∨ len ≤ 0 ∨
        lo / (sr / 2) ≤ 0 ∨ 1 ≤ hi / (sr / 2) ∨ hi / (sr / 2) ≤ lo / (sr / 2)) ∧
    ((bandpass_filter input output len sr lo hi).1 = false →
      (bandpass_filter input output len sr lo hi).2 = output) := by
  match input, output with
  | none, o =>
    refine ⟨by simp [bandpass_filter], fun _ => rfl⟩
  | some inp, none =>
    refine ⟨by simp [bandpass_filter], fun _ => rfl⟩
  | some inp, some out =>
    by_cases hlen : len ≤ 0
    · exact ⟨by simp [bandpass_filter, hlen], fun _ => by simp [bandpass_filter, hlen]⟩
    · by_cases hv : lo / (sr / 2) ≤ 0 ∨ 1 ≤ hi / (sr / 2) ∨ hi / (sr / 2) ≤ lo / (sr / 2)
      · exact ⟨by simp [bandpass_filter, hlen, hv],
          fun _ => by simp [bandpass_filter, hlen, hv]⟩
      · push_neg at hv
        obtain ⟨hv1, hv2, hv3⟩ := hv
        rw [bandpass_eq_of_valid inp out len sr lo hi (by omega) hv1 hv2 hv3]
        refine ⟨?_, fun hfalse => by simp at hfalse⟩
        simp [hlen, not_le.mpr hv1, not_le.mpr hv2, not_le.mpr hv3]

/-- C5: `bandpass_filter` fails exactly on a null input, a null output,
non-positive length, `low/nyquist ≤ 0`, `high/nyquist ≥ 1`, or
`low/nyquist ≥ high/nyquist` (nyquist = sample_rate/2), and on failure the
output buffer is returned unchanged (the input buffer is never written). -/
theorem C5_bandpass_failure_iff {α : Type} [LinearOrderedField α]
    (input output : Option (ℕ → α)) (len : ℤ) (sr lo hi : α) :
    ((bandpass_filter input output len sr lo hi).1 = false ↔
      input = none ∨ output = none ∨ len ≤ 0 ∨
        lo / (sr / 2) ≤ 0 ∨ 1 ≤ hi / (sr / 2) ∨ hi / (sr / 2) ≤ lo / (sr / 2)) ∧
    ((bandpass_filter input output len sr lo hi).1 = false →
      (bandpass_filter input output len sr lo hi).2 = output) :=
  bandpass_failure_char input output len sr lo hi

/-- Witness for C5: a concrete failing call (null input) over `ℚ`. -/
theorem C5_bandpass_failure_iff_witness :
    (bandpass_filter (none : Option (ℕ → ℚ)) (some fun _ => 0) 5 30 0.8 3).1 = false ∧
    (bandpass_filter (none : Option (ℕ → ℚ)) (some fun _ => 0) 5 30 0.8 3).2 =
      some fun _ => 0 :=
  ⟨(C5_bandpass_failure_iff none (some fun _ => 0) 5 30 0.8 3).1.mpr (Or.inl rfl),
    (C5_bandpass_failure_iff none (some fun _ => 0) 5 30 0.8 3).2
      ((C5_bandpass_failure_iff none (some fun _ => 0) 5 30 0.8 3).1.mpr (Or.inl rfl))⟩

theorem sumX_eq {α : Type} [LinearOrderedField α] (n : ℕ) :
    sumX (α := α) n = (n : α) * ((n : α) - 1) / 2 := by
  induction n with
  | zero => simp [sumX]
  | succ m ih =>
    rw [sumX, Finset.sum_range_succ, ← sumX, ih]
    push_cast
    ring

theorem sumX2_eq {α : Type} [LinearOrderedField α] (n : ℕ) :
    sumX2 (α := α) n = (n : α) * ((n : α) - 1) * (2 * (n : α) - 1) / 6 := by
  induction n with
  | zero => simp [sumX2]
  | succ m ih =>
    rw [sumX2, Finset.sum_range_succ, ← sumX2, ih]
    push_cast
    ring

/-- Closed form of the regression denominator `N*Sum(x^2) - (Sum(x))^2`. -/
theorem detrendDenom_eq {α : Type} [LinearOrderedField α] (n : ℕ) :
    (n : α) * sumX2 n - sumX n * sumX n = (n : α) ^ 2 * ((n : α) ^ 2 - 1) / 12 := by
  rw [sumX_eq, sumX2_eq]
  ring

/-- The demeaned signal sums to zero. -/
theorem sumYOf_demean {α : Type} [LinearOrderedField α] (n : ℕ) (x : ℕ → α)
    (hn : (n : α) ≠ 0) : sumYOf n (demean n x) = 0 := by
  simp only [sumYOf, demean, detrendMean, Finset.sum_sub_distrib, Finset.sum_const,
    Finset.card_range, nsmul_eq_mul]
  field_simp

theorem sumYOf_linear_sub {α : Type} [LinearOrderedField α] (n : ℕ) (y : ℕ → α)
    (s c : α) :
    sumYOf n (fun i => y i - (s * i + c)) =
      sumYOf n y - (s * sumX n + n * c) := by
  simp only [sumYOf, sumX]
  rw [Finset.sum_sub_distrib, Finset.sum_add_distrib, ← Finset.mul_sum, Finset.sum_const,
    Finset.card_range, nsmul_eq_mul]

theorem sumXYOf_linear_sub {α : Type} [LinearOrderedField α] (n : ℕ) (y : ℕ → α)
    (s c : α) :
    sumXYOf n (fun i => y i - (s * i + c)) =
      sumXYOf n y - (s * sumX2 n + c * sumX n) := by
  simp only [sumXYOf, sumX, sumX2]
  have h : ∀ i ∈ Finset.range n,
      (i : α) * (y i - (s * i + c)) = (i : α) * y i - (s * ((i : α) * i) + c * i) :=
    fun i _ => by ring
  rw [Finset.sum_congr rfl h, Finset.sum_sub_distrib, Finset.sum_add_distrib,
    ← Finset.mul_sum, ← Finset.mul_sum]

/-- C6: for every buffer of length `N ≥ 2` the regression denominator
`N*Sum(x^2) - (Sum(x))^2` is nonzero, and after `detrend_signal` the buffer
has arithmetic mean exactly 0 and least-squares regression slope against the
sample index exactly 0 (exact field arithmetic; instantiating `α := ℝ` gives
the exact-real statement). -/
theorem C6_detrend_mean_slope_zero {α : Type} [LinearOrderedField α] (n : ℕ)
    (x : ℕ → α) (h2 : 2 ≤ n) :
    ((n : α) * sumX2 n - sumX n * sumX n ≠ 0) ∧
    sumYOf n (detrend_signal n x) / n = 0 ∧
    regSlope n (detrend_signal n x) = 0 := by
  have h2a : (2 : α) ≤ (n : α) := by exact_mod_cast h2
  have hn : (n : α) ≠ 0 := by nlinarith
  have hDpos : 0 < (n : α) * sumX2 n - sumX n * sumX n := by
    rw [detrendDenom_eq]
    have h4 : (4 : α) ≤ (n : α) ^ 2 := by nlinarith [sq_nonneg ((n : α) - 2)]
    have h1 : (0 : α) < (n : α) ^ 2 * ((n : α) ^ 2 - 1) := by nlinarith
    linarith
  have hDne : (n : α) * sumX2 n - sumX n * sumX n ≠ 0 := ne_of_gt hDpos
  have hSY : sumYOf n (demean n x) = 0 := sumYOf_demean n x hn
  have hout : sumYOf n (detrend_signal n x) = 0 := by
    unfold detrend_signal
    rw [sumYOf_linear_sub, hSY, regIntercept, hSY]
    field_simp
    ring
  have hxyout : sumXYOf n (detrend_signal n x) =
      sumXYOf n (demean n x) - (regSlope n (demean n x) * sumX2 n +
        regIntercept n (demean n x) * sumX n) := by
    unfold detrend_signal
    exact sumXYOf_linear_sub n (demean n x) _ _
  refine ⟨hDne, by rw [hout]; simp, ?_⟩
  rw [regSlope, hout, hxyout, regIntercept, hSY, regSlope, hSY]
  field_simp
  ring

/-- Witness for C6 at `n = 2` over `ℚ`. -/
theorem C6_detrend_mean_slope_zero_witness :
    2 ≤ 2 ∧
    (((2 : ℕ) : ℚ) * sumX2 2 - sumX 2 * sumX 2 ≠ 0) ∧
    sumYOf 2 (detrend_signal 2 (fun i => (i : ℚ) + 3)) / 2 = 0 ∧
    regSlope 2 (detrend_signal 2 (fun i => (i : ℚ) + 3)) = 0 :=
  ⟨by decide, C6_detrend_mean_slope_zero 2 (fun i => (i : ℚ) + 3) (by decide)⟩

theorem hpStage_congr {α : Type} [LinearOrderedField α] (a : α) (x y : ℕ → α) :
    ∀ i : ℕ, (∀ j, j ≤ i → x j = y j) → hpStage a x i = hpStage a y i
  | 0, h => by simp only [hpStage, h 0 (le_refl 0)]
  | i + 1, h => by
    simp only [hpStage]
    rw [hpStage_congr a x y i (fun j hj => h j (Nat.le_succ_of_le hj)),
      h (i + 1) (le_refl _), h i (Nat.le_succ i)]

theorem lpStage_congr {α : Type} [LinearOrderedField α] (a : α) (t u : ℕ → α) :
    ∀ i : ℕ, (∀ j, j ≤ i → t j = u j) → lpStage a t i = lpStage a u i
  | 0, h => by simp only [lpStage, h 0 (le_refl 0)]
  | i + 1, h => by
    simp only [lpStage]
    rw [lpStage_congr a t u i (fun j hj => h j (Nat.le_succ_of_le hj)),
      h (i + 1) (le_refl _)]

theorem sumYOf_congr {α : Type} [LinearOrderedField α] (n : ℕ) (f g : ℕ → α)
    (h : ∀ j, j < n → f j = g j) : sumYOf n f = sumYOf n g :=
  Finset.sum_congr rfl fun i hi => h i (Finset.mem_range.mp hi)

theorem sumXYOf_congr {α : Type} [LinearOrderedField α] (n : ℕ) (f g : ℕ → α)
    (h : ∀ j, j < n → f j = g j) : sumXYOf n f = sumXYOf n g :=
  Finset.sum_congr rfl fun i hi => by rw [h i (Finset.mem_range.mp hi)]

theorem detrendMean_congr {α : Type} [LinearOrderedField α] (n : ℕ) (f g : ℕ → α)
    (h : ∀ j, j < n → f j = g j) : detrendMean n f = detrendMean n g := by
  unfold detrendMean
  rw [Finset.sum_congr rfl fun i hi => h i (Finset.mem_range.mp hi)]

theorem demean_congr {α : Type} [LinearOrderedField α] (n : ℕ) (f g : ℕ → α)
    (h : ∀ j, j < n → f j = g j) : ∀ i, i < n → demean n f i = demean n g i :=
  fun i hi => by unfold demean; rw [h i hi, detrendMean_congr n f g h]

/-- `detrend_signal` only reads the first `n` samples: congruence below `n`. -/
theorem detrend_congr {α : Type} [LinearOrderedField α] (n : ℕ) (f g : ℕ → α)
    (h : ∀ j, j < n → f j = g j) :
    ∀ i, i < n → detrend_signal n f i = detrend_signal n g i := by
  intro i hi
  have hs : regSlope n (demean n f) = regSlope n (demean n g) := by
    unfold regSlope
    rw [sumXYOf_congr n _ _ (demean_congr n f g h), sumYOf_congr n _ _ (demean_congr n f g h)]
  have hc : regIntercept n (demean n f) = regIntercept n (demean n g) := by
    unfold regIntercept
    rw [hs, sumYOf_congr n _ _ (demean_congr n f g h)]
  unfold detrend_signal
  rw [demean_congr n f g h i hi, hs, hc]

theorem le_foldl_max {α : Type} [LinearOrderedField α] :
    ∀ (l : List α) (b : α), b ≤ l.foldl max b
  | [], b => le_refl b
  | a :: l, b => le_trans (le_max_left b a) (le_foldl_max l (max b a))

theorem mem_le_foldl_max {α : Type} [LinearOrderedField α] :
    ∀ (l : List α) (b a : α), a ∈ l → a ≤ l.foldl max b
  | [], _, _, h => by simp at h
  | c :: l, b, a, h => by
    rcases List.mem_cons.mp h with h1 | h2
    · subst h1; exact le_trans (le_max_right b a) (le_foldl_max l (max b a))
    · exact mem_le_foldl_max l (max b c) a h2

theorem foldl_min_le {α : Type} [LinearOrderedField α] :
    ∀ (l : List α) (b : α), l.foldl min b ≤ b
  | [], b => le_refl b
  | a :: l, b => le_trans (foldl_min_le l (min b a)) (min_le_left b a)

theorem foldl_min_le_mem {α : Type} [LinearOrderedField α] :
    ∀ (l : List α) (b a : α), a ∈ l → l.foldl min b ≤ a
  | [], _, _, h => by simp at h
  | c :: l, b, a, h => by
    rcases List.mem_cons.mp h with h1 | h2
    · subst h1; exact le_trans (foldl_min_le l (min b a)) (min_le_right b a)
    · exact foldl_min_le_mem l (min b c) a h2

theorem le_bufMax {α : Type} [LinearOrderedField α] (n : ℕ) (x : ℕ → α) (i : ℕ)
    (hi : i < n) : x i ≤ bufMax n x :=
  mem_le_foldl_max _ _ _ (List.mem_map.mpr ⟨i, List.mem_range.mpr hi, rfl⟩)

theorem bufMin_le {α : Type} [LinearOrderedField α] (n : ℕ) (x : ℕ → α) (i : ℕ)
    (hi : i < n) : bufMin n x ≤ x i :=
  foldl_min_le_mem _ _ _ (List.mem_map.mpr ⟨i, List.mem_range.mpr hi, rfl⟩)

theorem bufMax_congr {α : Type} [LinearOrderedField α] (n : ℕ) (x y : ℕ → α)
    (h : ∀ j, j < n → x j = y j) (hn : 0 < n) : bufMax n x = bufMax n y := by
  unfold bufMax
  rw [List.map_congr_left fun a ha => h a (List.mem_range.mp ha), h 0 hn]

theorem bufMin_congr {α : Type} [LinearOrderedField α] (n : ℕ) (x y : ℕ → α)
    (h : ∀ j, j < n → x j = y j) (hn : 0 < n) : bufMin n x = bufMin n y := by
  unfold bufMin
  rw [List.map_congr_left fun a ha => h a (List.mem_range.mp ha), h 0 hn]

/-- On a validated call, `process_rppg_signals` succeeds and returns the
normalized filtered buffer. -/
theorem process_eq_of_valid {α : Type} [LinearOrderedField α]
    (f g : ℕ → α) (len : ℤ) (sr : α)
    (hlen : 0 < len) (h1 : 0 < (0.8 : α) / (sr / 2)) (h2 : (3.0 : α) / (sr / 2) < 1)
    (h3 : (0.8 : α) / (sr / 2) < (3.0 : α) / (sr / 2)) :
    process_rppg_signals (some f) (some g) len sr =
      (true, some (normalizeStep len.toNat (fun i : ℕ =>
        if (i : ℤ) < len then
          lpStage (alphaLow sr 0.8) (hpStage (alphaHigh sr 3.0)
            (procDet len.toNat f g)) i
        else procDet len.toNat f g i))) := by
  have hbp := bandpass_eq_of_valid (procDet len.toNat f g) (procDet len.toNat f g)
    len sr 0.8 3.0 hlen h1 h2 h3
  simp only [process_rppg_signals, if_neg (by omega : ¬ len ≤ 0)]
  rw [hbp]

/-- C3: `process_rppg_signals` succeeds iff input and output are non-null,
`length > 0`, and the fixed band [0.8, 3.0] Hz passes filter validation for
`sample_rate`; on success the output below `length` is the min-max
normalization of the detrended-then-filtered input (values in `[0,1]` when
`max > min`, the raw filtered values when `max = min`). -/
theorem C3_process_pipeline {α : Type} [LinearOrderedField α]
    (input output : Option (ℕ → α)) (len : ℤ) (sr : α) :
    ((process_rppg_signals input output len sr).1 = true ↔
      (∃ f, input = some f) ∧ (∃ g, output = some g) ∧ 0 < len ∧
        0 < (0.8 : α) / (sr / 2) ∧ (3.0 : α) / (sr / 2) < 1 ∧
        (0.8 : α) / (sr / 2) < (3.0 : α) / (sr / 2)) ∧
    (∀ f g, input = some f → output = some g → 0 < len →
      0 < (0.8 : α) / (sr / 2) → (3.0 : α) / (sr / 2) < 1 →
      (0.8 : α) / (sr / 2) < (3.0 : α) / (sr / 2) →
      ∃ h, (process_rppg_signals input output len sr).2 = some h ∧
        (∀ i : ℕ, i < len.toNat →
          (bufMin len.toNat (procFiltered len.toNat sr f) <
              bufMax len.toNat (procFiltered len.toNat sr f) →
            h i = (procFiltered len.toNat sr f i -
                bufMin len.toNat (procFiltered len.toNat sr f)) /
              (bufMax len.toNat (procFiltered len.toNat sr f) -
                bufMin len.toNat (procFiltered len.toNat sr f)) ∧
            0 ≤ h i ∧ h i ≤ 1) ∧
          (bufMax len.toNat (procFiltered len.toNat sr f) =
              bufMin len.toNat (procFiltered len.toNat sr f) →
            h i = procFiltered len.toNat sr f i))) := by
  constructor
  · -- success characterization
    match input, output with
    | none, o =>
      refine iff_of_false (by simp [process_rppg_signals]) ?_
      rintro ⟨⟨f, hf⟩, -⟩
      exact absurd hf (by simp)
    | some f0, none =>
      refine iff_of_false (by simp [process_rppg_signals]) ?_
      rintro ⟨-, ⟨g, hg⟩, -⟩
      exact absurd hg (by simp)
    | some f0, some g0 =>
      by_cases hlen : len ≤ 0
      · refine iff_of_false ?_ ?_
        · simp [process_rppg_signals, hlen]
        · rintro ⟨-, -, hpos, -⟩
          omega
      · by_cases hv : (0.8 : α) / (sr / 2) ≤ 0 ∨ 1 ≤ (3.0 : α) / (sr / 2) ∨
            (3.0 : α) / (sr / 2) ≤ (0.8 : α) / (sr / 2)
        · have hb : (bandpass_filter (some (procDet len.toNat f0 g0))
              (some (procDet len.toNat f0 g0)) len sr 0.8 3.0).1 = false :=
            (bandpass_failure_char _ _ _ _ _ _).1.mpr (by
              rcases hv with h | h | h
              · exact Or.inr (Or.inr (Or.inr (Or.inl h)))
              · exact Or.inr (Or.inr (Or.inr (Or.inr (Or.inl h))))
              · exact Or.inr (Or.inr (Or.inr (Or.inr (Or.inr h)))))
          have hpr : bandpass_filter (some (procDet len.toNat f0 g0))
              (some (procDet len.toNat f0 g0)) len sr 0.8 3.0 =
              (false, (bandpass_filter (some (procDet len.toNat f0 g0))
                (some (procDet len.toNat f0 g0)) len sr 0.8 3.0).2) := by
            rw [← hb]
          refine iff_of_false ?_ ?_
          · simp only [process_rppg_signals, if_neg hlen]
            rw [hpr]
            simp
          · rintro ⟨-, -, -, c4, c5, c6⟩
            rcases hv with h | h | h <;> linarith
        · push_neg at hv
          obtain ⟨hv1, hv2, hv3⟩ := hv
          rw [process_eq_of_valid f0 g0 len sr (by omega) hv1 hv2 hv3]
          exact iff_of_true rfl ⟨⟨f0, rfl⟩, ⟨g0, rfl⟩, by omega, hv1, hv2, hv3⟩
  · -- success output description
    intro f g hf hg hlen h1 h2 h3
    subst hf; subst hg
    rw [process_eq_of_valid f g len sr hlen h1 h2 h3]
    refine ⟨_, rfl, ?_⟩
    have hn : 0 < len.toNat := by omega
    have hpd : ∀ k, k < len.toNat → procDet len.toNat f g k =
        detrend_signal len.toNat f k := by
      intro k hk
      unfold procDet
      rw [if_pos hk]
      exact detrend_congr len.toNat (procCopied len.toNat f g) f
        (fun m hm => by unfold procCopied; rw [if_pos hm]) k hk
    have hface : ∀ i, i < len.toNat →
        (if (i : ℤ) < len then
          lpStage (alphaLow sr 0.8) (hpStage (alphaHigh sr 3.0)
            (procDet len.toNat f g)) i
        else procDet len.toNat f g i) = procFiltered len.toNat sr f i := by
      intro i hi
      rw [if_pos (by omega : (i : ℤ) < len)]
      unfold procFiltered
      refine lpStage_congr _ _ _ i (fun j hj => ?_)
      refine hpStage_congr _ _ _ j (fun k hk => ?_)
      exact hpd k (lt_of_le_of_lt (le_trans hk hj) hi)
    have hM : bufMax len.toNat (fun i : ℕ =>
        if (i : ℤ) < len then
          lpStage (alphaLow sr 0.8) (hpStage (alphaHigh sr 3.0)
            (procDet len.toNat f g)) i
        else procDet len.toNat f g i) = bufMax len.toNat (procFiltered len.toNat sr f) :=
      bufMax_congr _ _ _ hface hn
    have hm : bufMin len.toNat (fun i : ℕ =>
        if (i : ℤ) < len then
          lpStage (alphaLow sr 0.8) (hpStage (alphaHigh sr 3.0)
            (procDet len.toNat f g)) i
        else procDet len.toNat f g i) = bufMin len.toNat (procFiltered len.toNat sr f) :=
      bufMin_congr _ _ _ hface hn
    intro i hi
    simp only [normalizeStep, hM, hm]
    constructor
    · intro hlt
      have hpos : 0 < bufMax len.toNat (procFiltered len.toNat sr f) -
          bufMin len.toNat (procFiltered len.toNat sr f) := sub_pos.mpr hlt
      rw [if_pos hpos]
      simp only [if_pos hi, hface i hi]
      refine ⟨trivial, div_nonneg (sub_nonneg.mpr (bufMin_le _ _ i hi)) (le_of_lt hpos), ?_⟩
      rw [div_le_one hpos]
      have := le_bufMax len.toNat (procFiltered len.toNat sr f) i hi
      linarith
    · intro heq
      have hneg : ¬ 0 < bufMax len.toNat (procFiltered len.toNat sr f) -
          bufMin len.toNat (procFiltered len.toNat sr f) := by rw [heq]; simp
      rw [if_neg hneg]
      exact hface i hi

/-- Witness for C3: a concrete successful call over `ℚ`. -/
theorem C3_process_pipeline_witness :
    (process_rppg_signals (some fun _ => (1 : ℚ)) (some fun _ => 0) 4 30).1 = true :=
  (C3_process_pipeline (some fun _ => (1 : ℚ)) (some fun _ => 0) 4 30).1.mpr
    ⟨⟨_, rfl⟩, ⟨_, rfl⟩, by decide, by norm_num, by norm_num, by norm_num⟩

/-- C9: a null signal or non-positive length makes `calculate_heart_rate_fft`
and `calculate_respiration_rate` return the sentinel 0.0 and makes
`process_rppg_signals` and `bandpass_filter` return boolean failure, and
`calculate_respiration_rate` also returns 0.0 whenever its [0.1, 0.7] Hz
filter call reports failure (in each case the guard returns before any
pipeline value is produced). -/
theorem C9_sentinels (signals out : Option (ℕ → ℝ)) (len : ℤ) (sr mn mx lo hi : ℝ) :
    (signals = none ∨ len ≤ 0 →
      calculate_heart_rate_fft signals len sr mn mx = 0 ∧
      calculate_respiration_rate signals len sr mn mx = 0 ∧
      (process_rppg_signals signals out len sr).1 = false ∧
      (bandpass_filter signals out len sr lo hi).1 = false) ∧
    ((bandpass_filter signals (some fun _ => 0) len sr 0.1 0.7).1 = false →
      calculate_respiration_rate signals len sr mn mx = 0) := by
  constructor
  · rintro (hnull | hlen)
    · subst hnull
      exact ⟨rfl, rfl, rfl, rfl⟩
    · match signals with
      | none => exact ⟨rfl, rfl, rfl, rfl⟩
      | some s =>
        refine ⟨by simp [calculate_heart_rate_fft, hlen],
          by simp [calculate_respiration_rate, hlen], ?_, ?_⟩
        · match out with
          | none => rfl
          | some g => simp [process_rppg_signals, hlen]
        · match out with
          | none => rfl
          | some g => simp [bandpass_filter, hlen]
  · intro hb
    match signals with
    | none => rfl
    | some s =>
      by_cases hlen : len ≤ 0
      · simp [calculate_respiration_rate, hlen]
      · have hpr : bandpass_filter (some s) (some fun _ => 0) len sr 0.1 0.7 =
            (false, (bandpass_filter (some s) (some fun _ => 0) len sr 0.1 0.7).2) := by
          rw [← hb]
        simp only [calculate_respiration_rate, if_neg hlen]
        rw [hpr]

/-- Witness for C9: the sentinel returns at a concrete null-signal call, and
the filter-failure path at the same call. -/
theorem C9_sentinels_witness :
    calculate_heart_rate_fft none 7 30 48 180 = 0 ∧
    calculate_respiration_rate none 7 30 48 180 = 0 ∧
    (process_rppg_signals none (some fun _ => (0 : ℝ)) 7 30).1 = false ∧
    (bandpass_filter none (some fun _ => (0 : ℝ)) 7 30 0.8 3.0).1 = false ∧
    calculate_respiration_rate none 7 30 48 180 = 0 :=
  ⟨((C9_sentinels none (some fun _ => 0) 7 30 48 180 0.8 3.0).1 (Or.inl rfl)).1,
   ((C9_sentinels none (some fun _ => 0) 7 30 48 180 0.8 3.0).1 (Or.inl rfl)).2.1,
   ((C9_sentinels none (some fun _ => 0) 7 30 48 180 0.8 3.0).1 (Or.inl rfl)).2.2.1,
   ((C9_sentinels none (some fun _ => 0) 7 30 48 180 0.8 3.0).1 (Or.inl rfl)).2.2.2,
   (C9_sentinels none (some fun _ => 0) 7 30 48 180 0.8 3.0).2 rfl⟩

/-- Invariant of the peak-search loop: the accumulator always holds the power
of its bin, the final bin is the initial bin or a scanned bin, the running
maximum only grows, every scanned power is dominated, and among all bins
achieving the final maximum the lowest-indexed one is kept (strict `>`). -/
theorem peakScan_foldl_spec {α : Type} [LinearOrderedField α] (psd : List α) :
    ∀ (l : List ℤ) (pb : ℤ) (mp : α),
      mp = psd.getD pb.toNat 0 →
      (∀ j ∈ l, pb < j) →
      List.Pairwise (· < ·) l →
      (l.foldl (peakStep psd) (pb, mp)).2 =
          psd.getD (l.foldl (peakStep psd) (pb, mp)).1.toNat 0 ∧
      ((l.foldl (peakStep psd) (pb, mp)).1 = pb ∨
          (l.foldl (peakStep psd) (pb, mp)).1 ∈ l) ∧
      mp ≤ (l.foldl (peakStep psd) (pb, mp)).2 ∧
      (∀ j ∈ l, psd.getD j.toNat 0 ≤ (l.foldl (peakStep psd) (pb, mp)).2) ∧
      (∀ j, (j = pb ∨ j ∈ l) →
        psd.getD j.toNat 0 = (l.foldl (peakStep psd) (pb, mp)).2 →
        (l.foldl (peakStep psd) (pb, mp)).1 ≤ j)
  | [], pb, mp, hmp, _, _ => by
    refine ⟨hmp, Or.inl rfl, le_refl _, by simp, ?_⟩
    rintro j (rfl | hj) _
    · exact le_refl j
    · simp at hj
  | i :: rest, pb, mp, hmp, hlt, hpair => by
    obtain ⟨hhead, htail⟩ := List.pairwise_cons.mp hpair
    simp only [List.foldl_cons]
    by_cases hcase : mp < psd.getD i.toNat 0
    · have hstep : peakStep psd (pb, mp) i = (i, psd.getD i.toNat 0) := by
        simp only [peakStep]
        rw [if_pos hcase]
      rw [hstep]
      obtain ⟨ih1, ih2, ih3, ih4, ih5⟩ :=
        peakScan_foldl_spec psd rest i (psd.getD i.toNat 0) rfl hhead htail
      refine ⟨ih1, ?_, le_trans (le_of_lt hcase) ih3, ?_, ?_⟩
      · rcases ih2 with h | h
        · exact Or.inr (List.mem_cons.mpr (Or.inl h))
        · exact Or.inr (List.mem_cons.mpr (Or.inr h))
      · intro j hj
        rcases List.mem_cons.mp hj with rfl | hj2
        · exact ih3
        · exact ih4 j hj2
      · rintro j (rfl | hj) h
        · exfalso
          have hje : psd.getD j.toNat 0 = mp := hmp.symm
          rw [hje] at h
          rw [h] at hcase
          exact absurd ih3 (not_le.mpr hcase)
        · rcases List.mem_cons.mp hj with rfl | hj2
          · exact ih5 j (Or.inl rfl) h
          · exact ih5 j (Or.inr hj2) h
    · have hstep : peakStep psd (pb, mp) i = (pb, mp) := by
        simp only [peakStep]
        rw [if_neg hcase]
      rw [hstep]
      push_neg at hcase
      obtain ⟨ih1, ih2, ih3, ih4, ih5⟩ :=
        peakScan_foldl_spec psd rest pb mp hmp
          (fun j hj => hlt j (List.mem_cons.mpr (Or.inr hj))) htail
      refine ⟨ih1, ?_, ih3, ?_, ?_⟩
      · rcases ih2 with h | h
        · exact Or.inl h
        · exact Or.inr (List.mem_cons.mpr (Or.inr h))
      · intro j hj
        rcases List.mem_cons.mp hj with rfl | hj2
        · exact le_trans hcase ih3
        · exact ih4 j hj2
      · rintro j (rfl | hj) h
        · exact ih5 j (Or.inl rfl) h
        · rcases List.mem_cons.mp hj with rfl | hj2
          · rcases ih2 with hpb | hmem
            · rw [hpb]
              exact le_of_lt (hlt j (List.mem_cons.mpr (Or.inl rfl)))
            · have hr2le : (List.foldl (peakStep psd) (pb, mp) rest).2 ≤ mp :=
                h.symm.trans_le hcase
              have hmpr2 : mp = (List.foldl (peakStep psd) (pb, mp) rest).2 :=
                le_antisymm ih3 hr2le
              have hpb_tie := ih5 pb (Or.inl rfl) (hmp.symm.trans hmpr2)
              exact le_trans hpb_tie
                (le_of_lt (hlt j (List.mem_cons.mpr (Or.inl rfl))))
          · exact ih5 j (Or.inr hj2) h

theorem scanList_mem_iff (mb xb j : ℤ) :
    j ∈ scanList mb xb ↔ mb + 1 ≤ j ∧ j ≤ xb := by
  unfold scanList
  simp only [List.mem_map, List.mem_range]
  constructor
  · rintro ⟨k, hk, rfl⟩
    omega
  · rintro ⟨h1, h2⟩
    exact ⟨(j - (mb + 1)).toNat, by omega, by omega⟩

theorem scanList_pairwise (mb xb : ℤ) : List.Pairwise (· < ·) (scanList mb xb) := by
  unfold scanList
  rw [List.pairwise_map]
  exact List.Pairwise.imp (fun h => by omega) (List.pairwise_lt_range _)

/-- `(int)` truncation is below its argument once it is at least 1. -/
theorem itrunc_cast_le {α : Type} [LinearOrderedField α] [FloorRing α] (z : α)
    (h1 : 1 ≤ itrunc z) : (itrunc z : α) ≤ z := by
  by_cases hz : 0 ≤ z
  · rw [itrunc, if_pos hz]
    exact Int.floor_le z
  · exfalso
    rw [itrunc, if_neg hz] at h1
    push_neg at hz
    have hfl : 0 ≤ ⌊-z⌋ := Int.floor_nonneg.mpr (by linarith)
    omega

/-- C4 (amended): provided the sample rate is positive and the clamped bin
range is nonempty (`min_bin ≤ max_bin`; the original claim omitted these two
hypotheses and is false without them), `find_peak_frequency` returns
`peak_bin * resolution` with `resolution = sample_rate / (2*len(psd))`, the
peak bin lies in the clamped range (so the result is at least the
resolution-quantized `min_freq`, at most `max_freq`, and never bin 0), and
among bins of equal maximal power the lowest-indexed bin is chosen
(strict `>` comparison). -/
theorem C4_peak_frequency_range (psd : List ℚ) (sr mnf mxf : ℚ)
    (hsr : 0 < sr)
    (hne : minBinOf psd sr mnf ≤ maxBinOf psd sr mxf) :
    find_peak_frequency psd sr mnf mxf =
      ((peakScan psd (minBinOf psd sr mnf) (maxBinOf psd sr mxf)).1 : ℚ) *
        freqResOf psd sr ∧
    1 ≤ (peakScan psd (minBinOf psd sr mnf) (maxBinOf psd sr mxf)).1 ∧
    minBinOf psd sr mnf ≤ (peakScan psd (minBinOf psd sr mnf) (maxBinOf psd sr mxf)).1 ∧
    (peakScan psd (minBinOf psd sr mnf) (maxBinOf psd sr mxf)).1 ≤ maxBinOf psd sr mxf ∧
    (itrunc (mnf / freqResOf psd sr) : ℚ) * freqResOf psd sr ≤
      find_peak_frequency psd sr mnf mxf ∧
    find_peak_frequency psd sr mnf mxf ≤ mxf ∧
    (∀ j : ℤ, minBinOf psd sr mnf ≤ j → j ≤ maxBinOf psd sr mxf →
      psd.getD j.toNat 0 ≤
        psd.getD (peakScan psd (minBinOf psd sr mnf) (maxBinOf psd sr mxf)).1.toNat 0) ∧
    (∀ j : ℤ, minBinOf psd sr mnf ≤ j → j ≤ maxBinOf psd sr mxf →
      psd.getD j.toNat 0 =
        psd.getD (peakScan psd (minBinOf psd sr mnf) (maxBinOf psd sr mxf)).1.toNat 0 →
      (peakScan psd (minBinOf psd sr mnf) (maxBinOf psd sr mxf)).1 ≤ j) := by
  have hmb1 : 1 ≤ minBinOf psd sr mnf := le_max_left 1 _
  have hxb : maxBinOf psd sr mxf ≤ (psd.length : ℤ) - 1 := min_le_left _ _
  have hlen2 : 2 ≤ psd.length := by omega
  have hlen2q : (2 : ℚ) ≤ (psd.length : ℚ) := by exact_mod_cast hlen2
  have hres : 0 < freqResOf psd sr := by
    unfold freqResOf
    apply div_pos hsr
    linarith
  obtain ⟨s1, s2, s3, s4, s5⟩ := peakScan_foldl_spec psd
    (scanList (minBinOf psd sr mnf) (maxBinOf psd sr mxf))
    (minBinOf psd sr mnf) (psd.getD (minBinOf psd sr mnf).toNat 0) rfl
    (fun j hj => by rw [scanList_mem_iff] at hj; omega)
    (scanList_pairwise _ _)
  have hps : List.foldl (peakStep psd)
      (minBinOf psd sr mnf, psd.getD (minBinOf psd sr mnf).toNat 0)
      (scanList (minBinOf psd sr mnf) (maxBinOf psd sr mxf)) =
      peakScan psd (minBinOf psd sr mnf) (maxBinOf psd sr mxf) := rfl
  rw [hps] at s1 s2 s3 s4 s5
  have hpk_lo : minBinOf psd sr mnf ≤
      (peakScan psd (minBinOf psd sr mnf) (maxBinOf psd sr mxf)).1 := by
    rcases s2 with h | h
    · omega
    · rw [scanList_mem_iff] at h
      omega
  have hpk_hi : (peakScan psd (minBinOf psd sr mnf) (maxBinOf psd sr mxf)).1 ≤
      maxBinOf psd sr mxf := by
    rcases s2 with h | h
    · omega
    · rw [scanList_mem_iff] at h
      omega
  have htr_le : itrunc (mnf / freqResOf psd sr) ≤ minBinOf psd sr mnf :=
    le_max_right 1 _
  have hpk_itr : (peakScan psd (minBinOf psd sr mnf) (maxBinOf psd sr mxf)).1 ≤
      itrunc (mxf / freqResOf psd sr) :=
    le_trans hpk_hi (min_le_right _ _)
  have hitr1 : 1 ≤ itrunc (mxf / freqResOf psd sr) := by omega
  refine ⟨rfl, by omega, hpk_lo, hpk_hi, ?_, ?_, ?_, ?_⟩
  · show (itrunc (mnf / freqResOf psd sr) : ℚ) * freqResOf psd sr ≤
      ((peakScan psd (minBinOf psd sr mnf) (maxBinOf psd sr mxf)).1 : ℚ) *
        freqResOf psd sr
    have hcast : (itrunc (mnf / freqResOf psd sr) : ℚ) ≤
        ((peakScan psd (minBinOf psd sr mnf) (maxBinOf psd sr mxf)).1 : ℚ) := by
      exact_mod_cast le_trans htr_le hpk_lo
    exact mul_le_mul_of_nonneg_right hcast (le_of_lt hres)
  · show ((peakScan psd (minBinOf psd sr mnf) (maxBinOf psd sr mxf)).1 : ℚ) *
      freqResOf psd sr ≤ mxf
    have h1 : ((peakScan psd (minBinOf psd sr mnf) (maxBinOf psd sr mxf)).1 : ℚ) ≤
        (itrunc (mxf / freqResOf psd sr) : ℚ) := by exact_mod_cast hpk_itr
    have h2 : (itrunc (mxf / freqResOf psd sr) : ℚ) ≤ mxf / freqResOf psd sr :=
      itrunc_cast_le _ hitr1
    calc ((peakScan psd (minBinOf psd sr mnf) (maxBinOf psd sr mxf)).1 : ℚ) *
          freqResOf psd sr
        ≤ (mxf / freqResOf psd sr) * freqResOf psd sr :=
          mul_le_mul_of_nonneg_right (le_trans h1 h2) (le_of_lt hres)
      _ = mxf := div_mul_cancel₀ mxf (ne_of_gt hres)
  · intro j hj1 hj2
    rw [← s1]
    rcases eq_or_lt_of_le hj1 with rfl | hjgt
    · exact s3
    · exact s4 j (by rw [scanList_mem_iff]; omega)
  · intro j hj1 hj2 hj3
    rcases eq_or_lt_of_le hj1 with rfl | hjgt
    · exact s5 _ (Or.inl rfl) (hj3.trans s1.symm)
    · exact s5 j (Or.inr (by rw [scanList_mem_iff]; omega)) (hj3.trans s1.symm)

/-- Counterexample to C4 as stated: with `psd = [1,1,1,1]`, sample rate 8,
`min_freq = 3`, `max_freq = 0` the clamped range `[3, 0]` is empty, yet the
function returns frequency 3, which exceeds `max_freq = 0`, and the selected
bin 3 lies outside the clamped range `[minBin, maxBin] = [3, 0]`. -/
theorem C4_peak_frequency_counterexample :
    find_peak_frequency ([1, 1, 1, 1] : List ℚ) 8 3 0 = 3 ∧
    minBinOf ([1, 1, 1, 1] : List ℚ) 8 3 = 3 ∧
    maxBinOf ([1, 1, 1, 1] : List ℚ) 8 0 = 0 ∧
    ¬ find_peak_frequency ([1, 1, 1, 1] : List ℚ) 8 3 0 ≤ 0 := by
  have hres : freqResOf ([1, 1, 1, 1] : List ℚ) 8 = 1 := by
    norm_num [freqResOf]
  have hmb : minBinOf ([1, 1, 1, 1] : List ℚ) 8 3 = 3 := by
    rw [minBinOf, hres, itrunc]
    norm_num
  have hxb : maxBinOf ([1, 1, 1, 1] : List ℚ) 8 0 = 0 := by
    rw [maxBinOf, hres, itrunc]
    norm_num
  have hscan : scanList 3 0 = [] := by
    rw [scanList]
    have h0 : ((0 : ℤ) - 3).toNat = 0 := by decide
    rw [h0]
    rfl
  have hval : find_peak_frequency ([1, 1, 1, 1] : List ℚ) 8 3 0 = 3 := by
    unfold find_peak_frequency peakScan
    rw [hmb, hxb, hscan, hres]
    norm_num
  exact ⟨hval, hmb, hxb, by rw [hval]; norm_num⟩

/-- Witness for the amended C4 at a concrete scan over `ℚ`. -/
theorem C4_peak_frequency_range_witness :
    0 < (10 : ℚ) ∧
    minBinOf ([1, 5, 2, 7, 7] : List ℚ) 10 1.3 ≤
      maxBinOf ([1, 5, 2, 7, 7] : List ℚ) 10 4.2 ∧
    find_peak_frequency ([1, 5, 2, 7, 7] : List ℚ) 10 1.3 4.2 =
      ((peakScan ([1, 5, 2, 7, 7] : List ℚ)
          (minBinOf ([1, 5, 2, 7, 7] : List ℚ) 10 1.3)
          (maxBinOf ([1, 5, 2, 7, 7] : List ℚ) 10 4.2)).1 : ℚ) *
        freqResOf ([1, 5, 2, 7, 7] : List ℚ) 10 :=
  ⟨by norm_num,
   by
     have hres : freqResOf ([1, 5, 2, 7, 7] : List ℚ) 10 = 1 := by
       norm_num [freqResOf]
     rw [minBinOf, maxBinOf, hres, itrunc, itrunc]
     norm_num,
   (C4_peak_frequency_range [1, 5, 2, 7, 7] 10 1.3 4.2 (by norm_num)
     (by
       have hres : freqResOf ([1, 5, 2, 7, 7] : List ℚ) 10 = 1 := by
         norm_num [freqResOf]
       rw [minBinOf, maxBinOf, hres, itrunc, itrunc]
       norm_num)).1⟩

theorem getD_map_range {β : Type} (n k : ℕ) (f : ℕ → β) (d : β) (h : k < n) :
    ((List.range n).map f).getD k d = f k := by
  rw [List.getD_eq_getElem _ _ (by simpa using h)]
  simp

/-- The padding loop never stops below `length`. -/
theorem nextPow2Loop_ge (length fs : ℕ) (h : 0 < fs) :
    length ≤ nextPow2Loop length fs := by
  rw [nextPow2Loop]
  split
  · exact nextPow2Loop_ge length (2 * fs) (by omega)
  · omega
termination_by length - fs
decreasing_by omega

/-- The padding loop preserves powers of two. -/
theorem nextPow2Loop_pow (length fs j : ℕ) (h : fs = 2 ^ j) :
    ∃ m, nextPow2Loop length fs = 2 ^ m := by
  rw [nextPow2Loop]
  split
  · exact nextPow2Loop_pow length (2 * fs) (j + 1) (by rw [h]; ring)
  · exact ⟨j, h⟩
termination_by length - fs
decreasing_by omega

/-- The padding loop result is minimal among powers of two that fit. -/
theorem nextPow2Loop_min (length fs j : ℕ) (h : fs = 2 ^ j) :
    ∀ t, length ≤ 2 ^ t → fs ≤ 2 ^ t → nextPow2Loop length fs ≤ 2 ^ t := by
  intro t ht hfs
  rw [nextPow2Loop]
  split
  · next hcond =>
    refine nextPow2Loop_min length (2 * fs) (j + 1) (by rw [h]; ring) t ht ?_
    have hjt : j < t := by
      by_contra hge
      push_neg at hge
      have h2 : 2 ^ t ≤ 2 ^ j := Nat.pow_le_pow_right (by norm_num) hge
      omega
    calc 2 * fs = 2 ^ (j + 1) := by rw [h]; ring
      _ ≤ 2 ^ t := Nat.pow_le_pow_right (by norm_num) hjt
  · exact hfs
termination_by length - fs
decreasing_by omega

theorem nextPow2_ge (length : ℕ) : length ≤ nextPow2 length :=
  nextPow2Loop_ge length 1 one_pos

theorem nextPow2_pow (length : ℕ) : ∃ m, nextPow2 length = 2 ^ m :=
  nextPow2Loop_pow length 1 0 (by norm_num)

theorem nextPow2_min (length : ℕ) :
    ∀ t, length ≤ 2 ^ t → nextPow2 length ≤ 2 ^ t :=
  fun t ht => nextPow2Loop_min length 1 0 (by norm_num) t ht (Nat.one_le_two_pow)

/-- `fft` preserves the buffer length. -/
theorem fft_length (data : List ℂ) : (fft data).length = data.length := by
  rw [fft]
  split
  · rfl
  · simp

/-- C7: for `length ≥ 1`, `calculate_psd` returns exactly `paddedSize/2`
values with `paddedSize = nextPow2 length`, the smallest power of two that is
at least `length`; the windowed FFT input holds `signal[i] * hann(i)` for
`i < length` and untouched zeros in the padded tail; and every returned value
is the squared magnitude `re^2 + im^2` of an FFT bin, hence non-negative. -/
theorem C7_psd_structure (s : ℕ → ℝ) (length : ℕ) (h1 : 1 ≤ length) :
    (calculate_psd s length).length = nextPow2 length / 2 ∧
    (∃ m, nextPow2 length = 2 ^ m) ∧
    length ≤ nextPow2 length ∧
    (∀ t, length ≤ 2 ^ t → nextPow2 length ≤ 2 ^ t) ∧
    (∀ i, i < length →
      (applyHann length (psdInit s length (nextPow2 length))).getD i 0 =
        ((s i : ℝ) : ℂ) * ((hannWindow length i : ℝ) : ℂ)) ∧
    (∀ i, length ≤ i →
      (applyHann length (psdInit s length (nextPow2 length))).getD i 0 = 0) ∧
    (∀ i, i < nextPow2 length / 2 →
      (calculate_psd s length).getD i 0 =
        ((fft (applyHann length (psdInit s length (nextPow2 length)))).getD i 0).re ^ 2 +
          ((fft (applyHann length (psdInit s length (nextPow2 length)))).getD i 0).im ^ 2 ∧
      0 ≤ (calculate_psd s length).getD i 0) := by
  have hfs : length ≤ nextPow2 length := nextPow2_ge length
  have hinit_len : (psdInit s length (nextPow2 length)).length = nextPow2 length := by
    simp [psdInit]
  have happly_len : (applyHann length (psdInit s length (nextPow2 length))).length =
      nextPow2 length := by
    simp [applyHann, hinit_len]
  refine ⟨by simp [calculate_psd], nextPow2_pow length, hfs, nextPow2_min length, ?_, ?_, ?_⟩
  · intro i hi
    have hifs : i < nextPow2 length := lt_of_lt_of_le hi hfs
    unfold applyHann
    rw [hinit_len, getD_map_range _ _ _ _ hifs, if_pos hi]
    unfold psdInit
    rw [getD_map_range _ _ _ _ hifs, if_pos hi]
  · intro i hi
    by_cases hifs : i < nextPow2 length
    · unfold applyHann
      rw [hinit_len, getD_map_range _ _ _ _ hifs, if_neg (by omega)]
      unfold psdInit
      rw [getD_map_range _ _ _ _ hifs, if_neg (by omega)]
    · exact List.getD_eq_default _ _ (by rw [happly_len]; omega)
  · intro i hi
    constructor
    · unfold calculate_psd
      rw [getD_map_range _ _ _ _ hi, Complex.normSq_apply]
      ring
    · unfold calculate_psd
      rw [getD_map_range _ _ _ _ hi]
      exact Complex.normSq_nonneg _

/-- Witness for C7 at `length = 2` and a concrete signal. -/
theorem C7_psd_structure_witness :
    1 ≤ 2 ∧ (calculate_psd (fun i => (i : ℝ)) 2).length = nextPow2 2 / 2 :=
  ⟨by decide, (C7_psd_structure (fun i => (i : ℝ)) 2 (by decide)).1⟩

/-- C8: for a non-null signal of positive length, `calculate_heart_rate_fft`
is exactly `60 *` the peak frequency of the PSD of the raw signal in the
BPM/60 band — unconditionally, with no band-pass filtering of the signal
before spectral analysis — while `calculate_respiration_rate`, whenever its
[0.1, 0.7] Hz filter call succeeds with output `g`, is `60 *` the peak
frequency of the PSD of the filtered signal `g`. -/
theorem C8_rate_composition (s : ℕ → ℝ) (len : ℤ) (sr mn mx : ℝ)
    (hlen : 0 < len) :
    calculate_heart_rate_fft (some s) len sr mn mx =
      60 * find_peak_frequency (calculate_psd s len.toNat) sr (mn / 60) (mx / 60) ∧
    (∀ g : ℕ → ℝ,
      (bandpass_filter (some s) (some fun _ => 0) len sr 0.1 0.7).1 = true →
      (bandpass_filter (some s) (some fun _ => 0) len sr 0.1 0.7).2 = some g →
      calculate_respiration_rate (some s) len sr mn mx =
        60 * find_peak_frequency (calculate_psd g len.toNat) sr (mn / 60) (mx / 60)) := by
  constructor
  · simp only [calculate_heart_rate_fft, if_neg (not_le.mpr hlen)]
    ring
  · intro g hsucc hg
    have hpair : bandpass_filter (some s) (some fun _ => 0) len sr 0.1 0.7 =
        (true, some g) := by
      have heta := @Prod.mk.eta _ _ (bandpass_filter (some s) (some fun _ => 0) len sr 0.1 0.7)
      rw [hsucc, hg] at heta
      exact heta.symm
    simp only [calculate_respiration_rate, if_neg (not_le.mpr hlen)]
    rw [hpair]
    ring

/-- Witness for C8: a concrete heart-rate and respiration-rate call at a
validated band over `ℝ`, with the respiration conclusion instantiated at the
concrete filtered buffer. -/
theorem C8_rate_composition_witness :
    (0 : ℤ) < 2 ∧
    calculate_heart_rate_fft (some fun _ => (1 : ℝ)) 2 30 48 180 =
      60 * find_peak_frequency (calculate_psd (fun _ => (1 : ℝ)) (2 : ℤ).toNat) 30
        (48 / 60) (180 / 60) ∧
    calculate_respiration_rate (some fun _ => (1 : ℝ)) 2 30 48 180 =
      60 * find_peak_frequency
        (calculate_psd (fun i : ℕ =>
          if (i : ℤ) < 2 then
            lpStage (alphaLow 30 0.1) (hpStage (alphaHigh 30 0.7) fun _ => (1 : ℝ)) i
          else (fun _ => (0 : ℝ)) i) (2 : ℤ).toNat) 30 (48 / 60) (180 / 60) := by
  have hbp := bandpass_eq_of_valid (fun _ => (1 : ℝ)) (fun _ => 0) 2 30 0.1 0.7
    (by norm_num) (by norm_num) (by norm_num) (by norm_num)
  have h := C8_rate_composition (fun _ => 1) 2 30 48 180 (by norm_num)
  exact ⟨by norm_num, h.1, h.2 _ (by rw [hbp]) (by rw [hbp])⟩

/-- C10: in the total embedding, every bin read by `find_peak_frequency` is
in bounds exactly when `min_bin = max(1, trunc(min_freq/resolution))` is at
most `len(psd) - 1`; and the PSD built by `calculate_heart_rate_fft` for a
signal of length exactly 1 (which passes the `length > 0` guard) is empty,
so its unconditional `psd[min_bin]` read is out of bounds. -/
theorem C10_peak_access_bounds :
    (∀ (psd : List ℝ) (sr mnf mxf : ℝ),
      (∀ j ∈ peakAccessedBins (minBinOf psd sr mnf) (maxBinOf psd sr mxf),
        0 ≤ j ∧ j < (psd.length : ℤ)) ↔
      minBinOf psd sr mnf ≤ (psd.length : ℤ) - 1) ∧
    (0 : ℤ) < 1 ∧
    (calculate_psd (fun _ => (1 : ℝ)) (1 : ℤ).toNat).length = 0 ∧
    ¬ (minBinOf (calculate_psd (fun _ => (1 : ℝ)) (1 : ℤ).toNat) 30 (48 / 60) ≤
        ((calculate_psd (fun _ => (1 : ℝ)) (1 : ℤ).toNat).length : ℤ) - 1) := by
  have hlen0 : (calculate_psd (fun _ => (1 : ℝ)) (1 : ℤ).toNat).length = 0 := by
    have hnp : nextPow2 1 = 1 := by
      rw [nextPow2, nextPow2Loop]
      norm_num
    simp [calculate_psd, hnp]
  refine ⟨?_, by norm_num, hlen0, ?_⟩
  · intro psd sr mnf mxf
    have hmb1 : 1 ≤ minBinOf psd sr mnf := le_max_left 1 _
    have hxb : maxBinOf psd sr mxf ≤ (psd.length : ℤ) - 1 := min_le_left _ _
    constructor
    · intro hall
      have hmem := hall (minBinOf psd sr mnf)
        (Finset.mem_insert_self _ _)
      omega
    · intro hbound j hj
      rcases Finset.mem_insert.mp hj with rfl | hicc
      · omega
      · rw [Finset.mem_Icc] at hicc
        omega
  · have hmb1 : 1 ≤ minBinOf (calculate_psd (fun _ => (1 : ℝ)) (1 : ℤ).toNat) 30
        (48 / 60) := le_max_left 1 _
    rw [hlen0]
    omega

theorem rootW_pow_mul (N a b : ℕ) :
    Complex.exp (-(2 * (Real.pi : ℂ) * Complex.I) * a * b / N) = rootW N ^ (a * b) := by
  rw [rootW, ← Complex.exp_nat_mul]
  congr 1
  push_cast
  ring

theorem twiddle_eq_rootW (N k : ℕ) : twiddle N k = rootW N ^ k := by
  rw [twiddle, rootW, ← Complex.exp_nat_mul]
  congr 1
  ring

theorem rootW_pow_self (N : ℕ) (hN : N ≠ 0) : rootW N ^ N = 1 := by
  have hNc : (N : ℂ) ≠ 0 := Nat.cast_ne_zero.mpr hN
  rw [rootW, ← Complex.exp_nat_mul,
    show (N : ℂ) * (-(2 * (Real.pi : ℂ) * Complex.I) / N) =
      -(2 * (Real.pi : ℂ) * Complex.I) from by field_simp; ring,
    Complex.exp_neg, Complex.exp_two_pi_mul_I, inv_one]

theorem rootW_double_sq (M : ℕ) (hM : M ≠ 0) : rootW (2 * M) ^ 2 = rootW M := by
  have hMc : (M : ℂ) ≠ 0 := Nat.cast_ne_zero.mpr hM
  rw [rootW, rootW, ← Complex.exp_nat_mul]
  congr 1
  push_cast
  field_simp
  ring

theorem rootW_double_pow (M : ℕ) (hM : M ≠ 0) : rootW (2 * M) ^ M = -1 := by
  have hMc : (M : ℂ) ≠ 0 := Nat.cast_ne_zero.mpr hM
  rw [rootW, ← Complex.exp_nat_mul,
    show (M : ℂ) * (-(2 * (Real.pi : ℂ) * Complex.I) / ((2 * M : ℕ) : ℂ)) =
      -((Real.pi : ℂ) * Complex.I) from by push_cast; field_simp; ring,
    Complex.exp_neg, Complex.exp_pi_mul_I]
  norm_num

theorem sum_range_double (M : ℕ) (f : ℕ → ℂ) :
    ∑ n in Finset.range (2 * M), f n =
      ∑ i in Finset.range M, f (2 * i) + ∑ i in Finset.range M, f (2 * i + 1) := by
  induction M with
  | zero => simp
  | succ m ih =>
    have h2 : 2 * (m + 1) = 2 * m + 1 + 1 := by ring
    rw [h2, Finset.sum_range_succ, Finset.sum_range_succ, ih,
      Finset.sum_range_succ, Finset.sum_range_succ]
    ring

theorem evens_getD : ∀ (l : List ℂ) (n : ℕ), (evens l).getD n 0 = l.getD (2 * n) 0
  | [], n => by simp [evens]
  | [a], 0 => rfl
  | [a], n + 1 => by
    have h2 : 2 * (n + 1) = 2 * n + 1 + 1 := by ring
    simp [evens, h2]
  | a :: b :: rest, 0 => rfl
  | a :: b :: rest, n + 1 => by
    have h2 : 2 * (n + 1) = 2 * n + 1 + 1 := by ring
    simp only [evens, h2, List.getD_cons_succ]
    exact evens_getD rest n

theorem odds_getD : ∀ (l : List ℂ) (n : ℕ), (odds l).getD n 0 = l.getD (2 * n + 1) 0
  | [], n => by simp [odds]
  | [a], 0 => rfl
  | [a], n + 1 => by
    have h2 : 2 * (n + 1) + 1 = 2 * n + 1 + 1 + 1 := by ring
    simp [odds, h2]
  | a :: b :: rest, 0 => rfl
  | a :: b :: rest, n + 1 => by
    have h2 : 2 * (n + 1) + 1 = 2 * n + 1 + 1 + 1 := by ring
    simp only [odds, h2, List.getD_cons_succ]
    exact odds_getD rest n

theorem dft_length (y : List ℂ) : (dft y).length = y.length := by
  simp [dft]

theorem dft_getD (y : List ℂ) (k : ℕ) (h : k < y.length) :
    (dft y).getD k 0 =
      ∑ n in Finset.range y.length,
        y.getD n 0 *
          Complex.exp (-(2 * (Real.pi : ℂ) * Complex.I) * n * k / y.length) := by
  unfold dft
  rw [getD_map_range _ _ _ _ h]

/-- Extensionality for complex lists via `getD`. -/
theorem list_ext_getD (l₁ l₂ : List ℂ) (hlen : l₁.length = l₂.length)
    (h : ∀ j, j < l₁.length → l₁.getD j 0 = l₂.getD j 0) : l₁ = l₂ := by
  apply List.ext_getElem hlen
  intro i h1 h2
  have hd := h i h1
  rwa [List.getD_eq_getElem _ _ h1, List.getD_eq_getElem _ _ h2] at hd

/-- The combine step of `fft` on an even-length buffer, read entrywise. -/
theorem fft_getD_even (data : List ℂ) (M : ℕ) (hM : 1 ≤ M)
    (hlen : data.length = 2 * M) (j : ℕ) (hj : j < 2 * M) :
    (fft data).getD j 0 =
      if j < M then
        (fft (evens data)).getD j 0 + twiddle (2 * M) j * (fft (odds data)).getD j 0
      else
        (fft (evens data)).getD (j - M) 0 -
          twiddle (2 * M) (j - M) * (fft (odds data)).getD (j - M) 0 := by
  rw [fft, dif_neg (by omega)]
  simp only [hlen]
  have h2 : 2 * M / 2 = M := by omega
  simp only [h2]
  rw [getD_map_range _ _ _ _ hj]
  by_cases hjM : j < M
  · rw [if_pos hjM, if_pos hjM]
  · rw [if_neg hjM, if_neg hjM, if_pos (show j - M < M from by omega)]

/-- The recursive Cooley-Tukey `fft` computes the reference DFT on every
power-of-two length (induction on the exponent). -/
theorem fft_eq_dft_pow (m : ℕ) : ∀ x : List ℂ, x.length = 2 ^ m → fft x = dft x := by
  induction m with
  | zero =>
    intro x hx
    have h1 : x.length = 1 := by simpa using hx
    obtain ⟨a, ha⟩ := List.length_eq_one.mp h1
    subst ha
    rw [fft, dif_pos (by simp)]
    unfold dft
    norm_num [Complex.exp_zero]
  | succ m ih =>
    intro x hx
    have hM1 : 1 ≤ 2 ^ m := Nat.one_le_two_pow
    have hM0 : 2 ^ m ≠ 0 := by omega
    have hNM : x.length = 2 * 2 ^ m := by rw [hx]; ring
    have hN0 : 2 * 2 ^ m ≠ 0 := by omega
    have hev_len : (evens x).length = 2 ^ m := by rw [evensLengthEq, hNM]; omega
    have hod_len : (odds x).length = 2 ^ m := by rw [oddsLengthEq, hNM]; omega
    have hev := ih (evens x) hev_len
    have hod := ih (odds x) hod_len
    apply list_ext_getD _ _ (by rw [fft_length, dft_length])
    intro j hj
    rw [fft_length, hNM] at hj
    rw [fft_getD_even x (2 ^ m) hM1 hNM j hj, hev, hod, dft_getD x j (by omega)]
    simp only [hNM, rootW_pow_mul]
    rw [sum_range_double (2 ^ m) (fun n => x.getD n 0 * rootW (2 * 2 ^ m) ^ (n * j))]
    by_cases hjM : j < 2 ^ m
    · rw [if_pos hjM,
        dft_getD (evens x) j (by rw [hev_len]; exact hjM),
        dft_getD (odds x) j (by rw [hod_len]; exact hjM)]
      simp only [hev_len, hod_len, rootW_pow_mul, evens_getD, odds_getD,
        twiddle_eq_rootW]
      have he : ∑ i in Finset.range (2 ^ m),
            x.getD (2 * i) 0 * rootW (2 * 2 ^ m) ^ (2 * i * j) =
          ∑ i in Finset.range (2 ^ m), x.getD (2 * i) 0 * rootW (2 ^ m) ^ (i * j) :=
        Finset.sum_congr rfl fun i _ => by
          rw [show 2 * i * j = 2 * (i * j) from by ring, pow_mul,
            rootW_double_sq (2 ^ m) hM0]
      have ho : ∑ i in Finset.range (2 ^ m),
            x.getD (2 * i + 1) 0 * rootW (2 * 2 ^ m) ^ ((2 * i + 1) * j) =
          ∑ i in Finset.range (2 ^ m),
            x.getD (2 * i + 1) 0 *
              (rootW (2 ^ m) ^ (i * j) * rootW (2 * 2 ^ m) ^ j) :=
        Finset.sum_congr rfl fun i _ => by
          rw [show (2 * i + 1) * j = 2 * (i * j) + j from by ring, pow_add, pow_mul,
            rootW_double_sq (2 ^ m) hM0]
      rw [he, ho, Finset.mul_sum]
      exact congr_arg₂ (· + ·) rfl (Finset.sum_congr rfl fun i _ => by ring)
    · rw [if_neg hjM]
      obtain ⟨k, rfl⟩ : ∃ k, j = k + 2 ^ m := ⟨j - 2 ^ m, by omega⟩
      have hk : k < 2 ^ m := by omega
      simp only [Nat.add_sub_cancel]
      rw [dft_getD (evens x) k (by rw [hev_len]; exact hk),
        dft_getD (odds x) k (by rw [hod_len]; exact hk)]
      simp only [hev_len, hod_len, rootW_pow_mul, evens_getD, odds_getD,
        twiddle_eq_rootW]
      have hpe : ∀ i : ℕ, rootW (2 * 2 ^ m) ^ (2 * i * (k + 2 ^ m)) =
          rootW (2 ^ m) ^ (i * k) := by
        intro i
        have h1 : rootW (2 * 2 ^ m) ^ (2 * i * (k + 2 ^ m)) =
            (rootW (2 * 2 ^ m) ^ 2) ^ (i * k) *
              (rootW (2 * 2 ^ m) ^ (2 * 2 ^ m)) ^ i := by
          rw [← pow_mul, ← pow_mul, ← pow_add]
          congr 1
          ring
        rw [h1, rootW_double_sq (2 ^ m) hM0, rootW_pow_self (2 * 2 ^ m) hN0,
          one_pow, mul_one]
      have hpo : ∀ i : ℕ, rootW (2 * 2 ^ m) ^ ((2 * i + 1) * (k + 2 ^ m)) =
          rootW (2 ^ m) ^ (i * k) * rootW (2 * 2 ^ m) ^ k * (-1) := by
        intro i
        have h1 : rootW (2 * 2 ^ m) ^ ((2 * i + 1) * (k + 2 ^ m)) =
            (rootW (2 * 2 ^ m) ^ 2) ^ (i * k) *
              (rootW (2 * 2 ^ m) ^ (2 * 2 ^ m)) ^ i *
              rootW (2 * 2 ^ m) ^ k * rootW (2 * 2 ^ m) ^ (2 ^ m) := by
          rw [← pow_mul, ← pow_mul, ← pow_add, ← pow_add, ← pow_add]
          congr 1
          ring
        rw [h1, rootW_double_sq (2 ^ m) hM0, rootW_pow_self (2 * 2 ^ m) hN0,
          rootW_double_pow (2 ^ m) hM0, one_pow, mul_one]
      have he : ∑ i in Finset.range (2 ^ m),
            x.getD (2 * i) 0 * rootW (2 * 2 ^ m) ^ (2 * i * (k + 2 ^ m)) =
          ∑ i in Finset.range (2 ^ m), x.getD (2 * i) 0 * rootW (2 ^ m) ^ (i * k) :=
        Finset.sum_congr rfl fun i _ => by rw [hpe i]
      have ho : ∑ i in Finset.range (2 ^ m),
            x.getD (2 * i + 1) 0 * rootW (2 * 2 ^ m) ^ ((2 * i + 1) * (k + 2 ^ m)) =
          ∑ i in Finset.range (2 ^ m),
            x.getD (2 * i + 1) 0 *
              (rootW (2 ^ m) ^ (i * k) * rootW (2 * 2 ^ m) ^ k * (-1)) :=
        Finset.sum_congr rfl fun i _ => by rw [hpo i]
      rw [he, ho]
      have ho2 : ∑ i in Finset.range (2 ^ m),
            x.getD (2 * i + 1) 0 *
              (rootW (2 ^ m) ^ (i * k) * rootW (2 * 2 ^ m) ^ k * (-1)) =
          -(rootW (2 * 2 ^ m) ^ k *
            ∑ i in Finset.range (2 ^ m),
              x.getD (2 * i + 1) 0 * rootW (2 ^ m) ^ (i * k)) := by
        rw [Finset.mul_sum, ← Finset.sum_neg_distrib]
        exact Finset.sum_congr rfl fun i _ => by ring
      rw [ho2]
      ring

/-- C2: for every complex vector whose length is a power of two, the
recursive `fft` (base case length <= 1 returned unchanged, even/odd split,
combine rule `X[k] = E[k] + exp(-2*pi*I*k/N)*O[k]`,
`X[k+N/2] = E[k] - exp(-2*pi*I*k/N)*O[k]`) computes, in exact complex
arithmetic, the reference DFT `X[k] = sum_n x[n] * exp(-2*pi*I*n*k/N)`. -/
theorem C2_fft_computes_dft (x : List ℂ) (h : ∃ m, x.length = 2 ^ m) :
    fft x = dft x := by
  obtain ⟨m, hm⟩ := h
  exact fft_eq_dft_pow m x hm

/-- Witness for C2 on the concrete length-2 vector `[1, 0]`. -/
theorem C2_fft_computes_dft_witness :
    (∃ m, ([1, 0] : List ℂ).length = 2 ^ m) ∧ fft [1, 0] = dft [1, 0] :=
  ⟨⟨1, rfl⟩, C2_fft_computes_dft [1, 0] ⟨1, rfl⟩⟩

end SignalProcessing
